import Mathlib

/-!
Verification of the `solana-dex-tools` library against its specification.

This file gives a shallow embedding of the library's core components:

* `ManagedAccount` — the single-record cache (`src/common/state.rs`);
* the PDA derivation functions (`src/orca/pda.rs`);
* the `OrcaWhirlpool` pool, its `accounts`, `refresh` and
  `new_initialized_from_rpc` operations (`src/orca/pool.rs`).

Modelling conventions:

* `Pubkey` is modelled as `Nat` and byte buffers (`Vec<u8>`) as `List Nat`.
* `anyhow::Error` is modelled as `String`.
* Decoders (`Deserializable::from_bytes`, external per record kind) are
  explicit function parameters `ByteSeq → Except String _`.
* `Pubkey::try_find_program_address` (external `solana-sdk` hashing) is an
  explicit function parameter `fpa` over a faithful seed representation.
* Rust panics (slice `chunks(0)`, out-of-range slice index) are modelled as
  `Except.error`.
* Stateful methods taking `&self` and mutating through atomics are modelled
  by explicit state passing: `update` returns the result paired with the
  post-call state; refresh returns the post-call member list.
* The batched RPC calls issued by an operation are returned as an explicit
  call log (`List (List Pubkey)`), one entry per `get_multiple_accounts`
  invocation, so that chunking behaviour is observable.
-/

-- ------------------------------------------------------------------ --
-- Basic types (src/common/types.rs, src/common/rpc.rs)
-- ------------------------------------------------------------------ --

/-- A Solana public key, modelled as a natural number. -/
abbrev Pubkey := Nat

/-- A raw byte buffer (`Vec<u8>`). -/
abbrev ByteSeq := List Nat

/-- `RpcResponse<T>`: a result together with the response timestamp
(`src/common/rpc.rs`). -/
structure RpcResponse (α : Type) where
  result : α
  response_time : Nat
deriving DecidableEq

/-- The `RpcProvider` trait (`src/common/rpc.rs`), with the associated
account type collapsed to its byte payload (the only capability the core
uses, via the `AccountData` trait of `src/common/account.rs`). -/
structure RpcProvider where
  getAccount : Pubkey → Except String (RpcResponse ByteSeq)
  getMultipleAccounts : List Pubkey → Except String (RpcResponse (List (Option ByteSeq)))
  maxAccountsPerRpcCall : Nat

-- ------------------------------------------------------------------ --
-- The Record Cache: ManagedAccount (src/common/state.rs)
-- ------------------------------------------------------------------ --

/-- `ManagedAccount<T>` (`src/common/state.rs`): pubkey, raw bytes, the
deserialized value, the `update_slot` version counter and the last update
time.  The `ArcSwap`/atomic wrappers are concurrency plumbing; the logical
state is the five fields. -/
structure ManagedAccount (T : Type) where
  pubkey : Pubkey
  bytes : ByteSeq
  deserialized : T
  update_slot : Nat
  last_update_time : Nat
deriving DecidableEq

/-- `ManagedAccount::new_initialized_from_bytes` (`src/common/state.rs`,
lines 81–96): decode first; on success the initial version is 1. -/
def ManagedAccount.new_initialized_from_bytes {T : Type}
    (dec : ByteSeq → Except String T) (pubkey : Pubkey)
    (initial_bytes : ByteSeq) (initial_time : Nat) :
    Except String (ManagedAccount T) :=
  match dec initial_bytes with
  | .error e => .error e
  | .ok initial_deserialized =>
      .ok { pubkey := pubkey
            bytes := initial_bytes
            deserialized := initial_deserialized
            update_slot := 1
            last_update_time := initial_time }

/-- `ManagedAccount::update` (`src/common/state.rs`, lines 133–144):
decode first (fail fast); on success replace bytes and decoded value,
increment the version counter and store the update time.  The Rust method
mutates through `&self`; here it returns the call's result paired with the
post-call state (on failure, the state is returned unchanged). -/
def ManagedAccount.update {T : Type} (dec : ByteSeq → Except String T)
    (self : ManagedAccount T) (new_bytes : ByteSeq) (update_time : Nat) :
    Except String Unit × ManagedAccount T :=
  match dec new_bytes with
  | .error e => (.error e, self)
  | .ok new_deserialized =>
      (.ok (), { pubkey := self.pubkey
                 bytes := new_bytes
                 deserialized := new_deserialized
                 update_slot := self.update_slot + 1
                 last_update_time := update_time })

/-- Sequentially apply a list of `(bytes, time)` updates to a cache,
keeping the post-call state after every call (matching repeated calls of
`ManagedAccount::update` on one cache). -/
def ManagedAccount.applyUpdates {T : Type} (dec : ByteSeq → Except String T)
    (self : ManagedAccount T) : List (ByteSeq × Nat) → ManagedAccount T
  | [] => self
  | (b, t) :: rest => ManagedAccount.applyUpdates dec (self.update dec b t).2 rest

-- ------------------------------------------------------------------ --
-- Address derivation (src/orca/pda.rs)
-- ------------------------------------------------------------------ --

/-- One seed of a program-derived-address derivation.  `lit` is a byte
literal such as `b"tick_array"`, `key` is `pool_pubkey.as_ref()`, and
`int` is `start_tick_index.to_string().as_bytes()` (the decimal rendering
of an `i32` is injective, so the integer itself is kept). -/
inductive Seed where
  | lit (s : String)
  | key (pk : Pubkey)
  | int (i : Int)
deriving DecidableEq

/-- The type of `Pubkey::try_find_program_address` (external `solana-sdk`
hashing, out of scope per the spec): a pure function from seeds and a
program id to an optional `(address, bump)` pair.  The derivation
functions are parameterized by it. -/
abbrev Fpa := List Seed → Pubkey → Option (Pubkey × Nat)

/-- `parse_whirlpool_master_pubkey` (`src/orca/pda.rs`): the fixed
whirlpool program key, an arbitrary but fixed constant in this model. -/
def parse_whirlpool_master_pubkey : Pubkey := 118190

/-- `TICK_ARRAY_SIZE` from `orca_whirlpools_core`: 88. -/
def TICK_ARRAY_SIZE : Int := 88

/-- `get_tick_array_address` (`src/orca/pda.rs`, lines 111–129): derive
the tick-array address for one start tick index; `None` from the
derivation becomes an error. -/
def get_tick_array_address (fpa : Fpa) (pool_pubkey : Pubkey)
    (start_tick_index : Int) : Except String Pubkey :=
  match fpa [Seed.lit "tick_array", Seed.key pool_pubkey,
             Seed.int start_tick_index] parse_whirlpool_master_pubkey with
  | none => .error "Failed to get tick array address"
  | some r => .ok r.1

/-- `get_oracle_address` (`src/orca/pda.rs`, lines 86–96): derive the
oracle address (and bump byte) for a pool. -/
def get_oracle_address (fpa : Fpa) (pool_pubkey : Pubkey) :
    Except String (Pubkey × Nat) :=
  match fpa [Seed.lit "oracle", Seed.key pool_pubkey]
        parse_whirlpool_master_pubkey with
  | none => .error "Failed to get oracle address"
  | some r => .ok r

/-- The start-index enumeration loop of `get_tick_array_addresses`
(`src/orca/pda.rs`, lines 59–68), collecting the visited start tick
indices: while `curr ≤ largest`, record `curr` and step by `width`.  The
`fuel` argument bounds the iteration count (the Rust loop needs no fuel;
callers pass fuel at least the exact number of iterations, which
`startLoop_getLast?` below justifies). -/
def startLoop (width largest : Int) : Int → Nat → List Int
  | _, 0 => []
  | curr, fuel + 1 =>
      if curr ≤ largest then curr :: startLoop width largest (curr + width) fuel
      else []

/-- The body of `get_tick_array_addresses` (`src/orca/pda.rs`, lines
61–68): the same loop, additionally deriving one address per start index
and aborting on a failed derivation (the `?` operator in the source). -/
def taLoop (fpa : Fpa) (pool_pubkey : Pubkey) (width largest : Int) :
    Int → Nat → Except String (List Pubkey)
  | _, 0 => .ok []
  | curr, fuel + 1 =>
      if curr ≤ largest then
        match get_tick_array_address fpa pool_pubkey curr with
        | .error e => .error e
        | .ok addr =>
            match taLoop fpa pool_pubkey width largest (curr + width) fuel with
            | .error e => .error e
            | .ok rest => .ok (addr :: rest)
      else .ok []

/-- `get_tick_array_addresses` (`src/orca/pda.rs`, lines 52–70): with
`W = TICK_ARRAY_SIZE * tick_spacing`, iterate start indices from
`div_floor(-443636, W) * W` up to `div_floor(443636, W) * W` in steps of
`W`, deriving one address per index.  `tick_spacing = 0` makes the Rust
`div_floor` panic (division by zero), modelled as an error; the fuel
passed to the loop is its exact iteration count. -/
def get_tick_array_addresses (fpa : Fpa) (whirlpool_pubkey : Pubkey)
    (tick_spacing : Nat) : Except String (List Pubkey) :=
  let abs_max_tick_idx : Int := 443636
  let tick_array_width : Int := TICK_ARRAY_SIZE * tick_spacing
  if tick_array_width ≤ 0 then .error "division by zero" else
  let lowq : Int := Int.fdiv (-abs_max_tick_idx) tick_array_width
  let highq : Int := Int.fdiv abs_max_tick_idx tick_array_width
  taLoop fpa whirlpool_pubkey tick_array_width (highq * tick_array_width)
    (lowq * tick_array_width) ((highq - lowq).toNat + 1)

-- ------------------------------------------------------------------ --
-- The OrcaWhirlpool pool (src/orca/pool.rs)
-- ------------------------------------------------------------------ --

/-- The decoded `Whirlpool` account (`orca_whirlpools_client`), restricted
to the fields the library reads: the two token mints and the tick
spacing (a `u16`). -/
structure WhirlpoolData where
  token_mint_a : Pubkey
  token_mint_b : Pubkey
  tick_spacing : Nat
deriving DecidableEq

/-- The closed set of record kinds a pool member can have (design note in
the spec: the set of supported record kinds is closed). -/
inductive Kind where
  | whirlK
  | tickK
  | oracK
  | mintK
deriving DecidableEq

/-- The decoded type of each record kind: `Whirlpool`, `TickArray`,
`Oracle` and `Mint`.  `TickArray`, `Oracle` and `Mint` contents are never
inspected by the library, so they stay type parameters. -/
def KindType (TA OR MI : Type) : Kind → Type
  | .whirlK => WhirlpoolData
  | .tickK => TA
  | .oracK => OR
  | .mintK => MI

/-- The per-kind decoders (`Deserializable::from_bytes` instances supplied
by external collaborators). -/
structure Decoders (TA OR MI : Type) where
  whirl : ByteSeq → Except String WhirlpoolData
  tick : ByteSeq → Except String TA
  orac : ByteSeq → Except String OR
  mint : ByteSeq → Except String MI

/-- Look up the decoder for a record kind. -/
def Decoders.deco {TA OR MI : Type} (dc : Decoders TA OR MI) :
    (k : Kind) → ByteSeq → Except String (KindType TA OR MI k)
  | .whirlK => dc.whirl
  | .tickK => dc.tick
  | .oracK => dc.orac
  | .mintK => dc.mint

/-- A capability-erased cache (`Arc<dyn AccountState>`): a record kind
paired with that kind's `ManagedAccount`. -/
abbrev DynAcct (TA OR MI : Type) := Σ k : Kind, ManagedAccount (KindType TA OR MI k)

/-- `AccountState::pubkey` through the erased view. -/
def dynPubkey {TA OR MI : Type} (a : DynAcct TA OR MI) : Pubkey := a.2.pubkey

/-- `AccountState::update` through the erased view: dispatch to the
member's kind-specific decoder. -/
def dynUpdate {TA OR MI : Type} (dc : Decoders TA OR MI)
    (a : DynAcct TA OR MI) (new_bytes : ByteSeq) (update_time : Nat) :
    Except String Unit × DynAcct TA OR MI :=
  ((ManagedAccount.update (dc.deco a.1) a.2 new_bytes update_time).1,
   ⟨a.1, (ManagedAccount.update (dc.deco a.1) a.2 new_bytes update_time).2⟩)

/-- `FailedAccount` (`src/orca/pool.rs`, lines 36–40). -/
structure FailedAccount where
  pubkey : Pubkey
  account_type : String
deriving DecidableEq

/-- `OrcaWhirlpool` (`src/orca/pool.rs`, lines 23–30). -/
structure OrcaWhirlpool (TA OR MI : Type) where
  whirlpool : ManagedAccount WhirlpoolData
  tick_arrays : List (ManagedAccount TA)
  oracle : Option (ManagedAccount OR)
  mint_a : ManagedAccount MI
  mint_b : ManagedAccount MI

/-- `OrcaWhirlpool::accounts` (`src/orca/pool.rs`, lines 61–76): the
pool's members as erased caches — whirlpool, mint A, mint B, then the
tick arrays, then the oracle when present. -/
def OrcaWhirlpool.accounts {TA OR MI : Type} (self : OrcaWhirlpool TA OR MI) :
    List (DynAcct TA OR MI) :=
  (⟨Kind.whirlK, self.whirlpool⟩ : DynAcct TA OR MI) ::
  (⟨Kind.mintK, self.mint_a⟩ : DynAcct TA OR MI) ::
  (⟨Kind.mintK, self.mint_b⟩ : DynAcct TA OR MI) ::
  (self.tick_arrays.map (fun ta => (⟨Kind.tickK, ta⟩ : DynAcct TA OR MI)) ++
   (match self.oracle with
    | some oracle => [(⟨Kind.oracK, oracle⟩ : DynAcct TA OR MI)]
    | none => []))

/-- The update loop of `OrcaWhirlpool::refresh` (`src/orca/pool.rs`,
lines 101–106): walk the zip of the member list with the fetched
per-member optional bytes; found members are updated (the `?` on a failed
update aborts the loop, leaving the failing and all later members at
their previous state), absent members are skipped.  Returns the loop's
result and the post-call member list. -/
def refreshLoop {TA OR MI : Type} (dc : Decoders TA OR MI) (update_time : Nat) :
    List (DynAcct TA OR MI) → List (Option ByteSeq) →
    Except String Unit × List (DynAcct TA OR MI)
  | [], _ => (.ok (), [])
  | a :: rest, [] => (.ok (), a :: rest)
  | a :: rest, none :: os =>
      let r := refreshLoop dc update_time rest os
      (r.1, a :: r.2)
  | a :: rest, some b :: os =>
      match dynUpdate dc a b update_time with
      | (.error e, a1) => (.error e, a1 :: rest)
      | (.ok _, a1) =>
          let r := refreshLoop dc update_time rest os
          (r.1, a1 :: r.2)

/-- `OrcaWhirlpool::refresh` (`src/orca/pool.rs`, lines 94–109): snapshot
the member keys, issue a single `get_multiple_accounts` over all of them
(no chunking — the doc comment delegates batching to the provider), then
update each member positionally.  Returns the result, the post-call
member list, and the log of batched calls issued. -/
def OrcaWhirlpool.refresh {TA OR MI : Type} (dc : Decoders TA OR MI)
    (rpc_client : RpcProvider) (self : OrcaWhirlpool TA OR MI) :
    Except String Unit × List (DynAcct TA OR MI) × List (List Pubkey) :=
  let accounts_to_update := self.accounts.map dynPubkey
  match rpc_client.getMultipleAccounts accounts_to_update with
  | .error e => (.error e, self.accounts, [accounts_to_update])
  | .ok rpc_response =>
      let r := refreshLoop dc rpc_response.response_time self.accounts
                 rpc_response.result
      (r.1, r.2, [accounts_to_update])

-- ------------------------------------------------------------------ --
-- Pool construction (src/orca/pool.rs, new_initialized_from_rpc)
-- ------------------------------------------------------------------ --

/-- The merged key-to-`(bytes, time)` fetch-result map
(`std::collections::HashMap` in the source), modelled as a
duplicate-free association list. -/
abbrev AccountMap := List (Pubkey × (ByteSeq × Nat))

/-- Map lookup (`HashMap` key equality). -/
def amFind (m : AccountMap) (k : Pubkey) : Option (ByteSeq × Nat) :=
  (m.find? (fun e => e.1 == k)).map (fun e => e.2)

/-- Drop the entry for a key, if any. -/
def amErase (m : AccountMap) (k : Pubkey) : AccountMap :=
  m.filter (fun e => !(e.1 == k))

/-- `HashMap::insert`: replace any existing entry for the key. -/
def amInsert (m : AccountMap) (k : Pubkey) (v : ByteSeq × Nat) : AccountMap :=
  (k, v) :: amErase m k

/-- `HashMap::remove` — the remove-and-return "take" used by the
`get_data` closure (`src/orca/pool.rs`, line 171): the removed value (if
any) together with the map without that entry. -/
def amRemove (m : AccountMap) (k : Pubkey) :
    Option (ByteSeq × Nat) × AccountMap :=
  (amFind m k, amErase m k)

/-- `slice::chunks` with explicit fuel (each step consumes `n ≥ 1`
elements, so fuel `l.length` suffices; `chunks` below passes exactly
that). -/
def chunksF {α : Type} : Nat → Nat → List α → List (List α)
  | 0, _, _ => []
  | _ + 1, _, [] => []
  | fuel + 1, n, x :: xs => (x :: xs).take n :: chunksF fuel n ((x :: xs).drop n)

/-- `pubkeys_to_fetch.chunks(limit)` (`src/orca/pool.rs`, line 157):
partition a list into consecutive chunks of size at most `n`.  The Rust
`chunks` panics for `n = 0`; `new_initialized_from_rpc` guards that case
before calling this. -/
def chunks {α : Type} (n : Nat) (l : List α) : List (List α) :=
  chunksF l.length n l

/-- The per-chunk insert loop (`src/orca/pool.rs`, lines 161–166):
`for (i, account_option) in accounts.into_iter().enumerate()`, inserting
`chunk[i] -> (bytes, time)` for each found account.  A `Some` result at
an index past the chunk's end would make the Rust `chunk[i]` panic,
modelled as an error. -/
def insertLoop (chunk : List Pubkey) (accounts_time : Nat) :
    AccountMap → List (Option ByteSeq) → Nat → Except String AccountMap
  | m, [], _ => .ok m
  | m, none :: os, i => insertLoop chunk accounts_time m os (i + 1)
  | m, some b :: os, i =>
      match chunk.get? i with
      | none => .error "index out of bounds"
      | some k => insertLoop chunk accounts_time
          (amInsert m k (b, accounts_time)) os (i + 1)

/-- The chunked batch-fetch loop (`src/orca/pool.rs`, lines 157–167):
one `get_multiple_accounts` per chunk, merging results into the account
map.  Also returns the log of batched calls actually issued. -/
def buildMapGo (rpc_provider : RpcProvider) :
    AccountMap → List (List Pubkey) →
    Except String AccountMap × List (List Pubkey)
  | m, [] => (.ok m, [])
  | m, chunk :: chunked =>
      match rpc_provider.getMultipleAccounts chunk with
      | .error e => (.error e, [chunk])
      | .ok rpc_response =>
          match insertLoop chunk rpc_response.response_time m
              rpc_response.result 0 with
          | .error e => (.error e, [chunk])
          | .ok m1 =>
              let r := buildMapGo rpc_provider m1 chunked
              (r.1, chunk :: r.2)

/-- The tick-array construction loop (`src/orca/pool.rs`, lines 225–240):
take each derived tick-array key out of the map; present entries must
decode (a failed decode aborts the whole construction via `?`), absent
entries are recorded as `FailedAccount`s with type `"TickArray"`. -/
def ticksLoop {TA OR MI : Type} (dc : Decoders TA OR MI) :
    AccountMap → List Pubkey →
    Except String (List (ManagedAccount TA) × List FailedAccount)
  | _, [] => .ok ([], [])
  | m, ta_pubkey :: rest =>
      match amRemove m ta_pubkey with
      | (some (ta_data, ta_time), m1) =>
          match ManagedAccount.new_initialized_from_bytes dc.tick ta_pubkey
              ta_data ta_time with
          | .error e => .error e
          | .ok ma =>
              match ticksLoop dc m1 rest with
              | .error e => .error e
              | .ok (tas, fails) => .ok (ma :: tas, fails)
      | (none, m1) =>
          match ticksLoop dc m1 rest with
          | .error e => .error e
          | .ok (tas, fails) =>
              .ok (tas, { pubkey := ta_pubkey, account_type := "TickArray" } :: fails)

/-- The assembly tail of `new_initialized_from_rpc` (`src/orca/pool.rs`,
lines 173–252): build the primary cache, take the two mandatory mints out
of the map (absence is fatal), then the optional oracle and the derived
tick arrays (absence recorded as `FailedAccount`s — oracle failure is
pushed before the tick-array failures, as in the source). -/
def assemblePool {TA OR MI : Type} (dc : Decoders TA OR MI)
    (pubkey : Pubkey) (whirlpool_bytes : ByteSeq) (whirlpool_time : Nat)
    (whirlpool_data : WhirlpoolData) (oracle_pubkey : Option Pubkey)
    (tick_arrays_pubkeys : List Pubkey) (account_map : AccountMap) :
    Except String (OrcaWhirlpool TA OR MI × List FailedAccount) :=
  match ManagedAccount.new_initialized_from_bytes dc.whirl pubkey
      whirlpool_bytes whirlpool_time with
  | .error e => .error e
  | .ok whirlpool =>
  match amRemove account_map whirlpool_data.token_mint_a with
  | (none, _) => .error ("Required account Mint A " ++
      toString whirlpool_data.token_mint_a ++ " could not be fetched")
  | (some (mint_a_data, mint_a_time), m1) =>
  match ManagedAccount.new_initialized_from_bytes dc.mint
      whirlpool_data.token_mint_a mint_a_data mint_a_time with
  | .error e => .error e
  | .ok mint_a =>
  match amRemove m1 whirlpool_data.token_mint_b with
  | (none, _) => .error ("Required account Mint B " ++
      toString whirlpool_data.token_mint_b ++ " could not be fetched")
  | (some (mint_b_data, mint_b_time), m2) =>
  match ManagedAccount.new_initialized_from_bytes dc.mint
      whirlpool_data.token_mint_b mint_b_data mint_b_time with
  | .error e => .error e
  | .ok mint_b =>
  let oracle_step : Except String
      (Option (ManagedAccount OR) × List FailedAccount × AccountMap) :=
    match oracle_pubkey with
    | some opk =>
        (match amRemove m2 opk with
         | (some (oracle_data, oracle_time), m3) =>
             (match ManagedAccount.new_initialized_from_bytes dc.orac opk
                 oracle_data oracle_time with
              | .error e => .error e
              | .ok o => .ok (some o, ([] : List FailedAccount), m3))
         | (none, m3) =>
             .ok (none, [{ pubkey := opk, account_type := "Oracle" }], m3))
    | none => .ok (none, ([] : List FailedAccount), m2)
  match oracle_step with
  | .error e => .error e
  | .ok (oracle, oracle_fails, m3) =>
  match ticksLoop dc m3 tick_arrays_pubkeys with
  | .error e => .error e
  | .ok (tick_arrays, tick_fails) =>
      .ok ({ whirlpool := whirlpool, tick_arrays := tick_arrays,
             oracle := oracle, mint_a := mint_a, mint_b := mint_b },
           oracle_fails ++ tick_fails)

/-- `OrcaWhirlpool::new_initialized_from_rpc` (`src/orca/pool.rs`, lines
125–252): fetch and decode the primary whirlpool, derive the oracle and
tick-array addresses, batch-fetch all dependents in chunks of at most
`max_accounts_per_rpc_call`, then assemble the pool.  Returns the result
paired with the log of batched `get_multiple_accounts` calls issued. -/
def OrcaWhirlpool.new_initialized_from_rpc {TA OR MI : Type}
    (dc : Decoders TA OR MI) (fpa : Fpa) (pubkey : Pubkey)
    (rpc_provider : RpcProvider) :
    Except String (OrcaWhirlpool TA OR MI × List FailedAccount) ×
      List (List Pubkey) :=
  match rpc_provider.getAccount pubkey with
  | .error e => (.error ("Failed to fetch main whirlpool account " ++
      toString pubkey ++ ": " ++ e), [])
  | .ok whirlpool_response =>
  let whirlpool_time := whirlpool_response.response_time
  let whirlpool_bytes := whirlpool_response.result
  match dc.whirl whirlpool_bytes with
  | .error e => (.error e, [])
  | .ok whirlpool_data =>
  let oracle_pubkey : Option Pubkey :=
    match get_oracle_address fpa pubkey with
    | .ok r => some r.1
    | .error _ => none
  let pubkeys_with_oracle :=
    [whirlpool_data.token_mint_a, whirlpool_data.token_mint_b] ++
    (match oracle_pubkey with
     | some opk => [opk]
     | none => [])
  match get_tick_array_addresses fpa pubkey whirlpool_data.tick_spacing with
  | .error e => (.error e, [])
  | .ok tick_arrays_pubkeys =>
  let pubkeys_to_fetch := pubkeys_with_oracle ++ tick_arrays_pubkeys
  let limit := rpc_provider.maxAccountsPerRpcCall
  if limit = 0 then (.error "chunk size must be non-zero", []) else
  match buildMapGo rpc_provider [] (chunks limit pubkeys_to_fetch) with
  | (.error e, log) => (.error e, log)
  | (.ok account_map, log) =>
      (assemblePool dc pubkey whirlpool_bytes whirlpool_time whirlpool_data
         oracle_pubkey tick_arrays_pubkeys account_map, log)

-- ------------------------------------------------------------------ --
-- Helper lemmas: the Record Cache
-- ------------------------------------------------------------------ --

/-- A successful decode makes `update` succeed with bytes replaced, the
version incremented by one and the time stored. -/
theorem ManagedAccount.update_ok {T : Type} (dec : ByteSeq → Except String T)
    (ma : ManagedAccount T) (b : ByteSeq) (t : Nat) (v : T)
    (hv : dec b = .ok v) :
    ma.update dec b t =
      (.ok (), { pubkey := ma.pubkey, bytes := b, deserialized := v,
                 update_slot := ma.update_slot + 1, last_update_time := t }) := by
  simp [ManagedAccount.update, hv]

/-- Applying a list of decodable updates adds the list's length to the
version counter and leaves the last update's bytes stored. -/
theorem ManagedAccount.applyUpdates_char {T : Type}
    (dec : ByteSeq → Except String T) :
    ∀ (us : List (ByteSeq × Nat)) (ma : ManagedAccount T),
      (∀ p ∈ us, ∃ v, dec p.1 = .ok v) →
      (ManagedAccount.applyUpdates dec ma us).update_slot =
          ma.update_slot + us.length ∧
      (∀ bl tl, us.getLast? = some (bl, tl) →
          (ManagedAccount.applyUpdates dec ma us).bytes = bl) := by
  intro us
  induction us with
  | nil => intro ma _; simp [ManagedAccount.applyUpdates]
  | cons p rest ih =>
      intro ma hok
      obtain ⟨b, t⟩ := p
      obtain ⟨v, hv⟩ := hok (b, t) (List.mem_cons_self _ _)
      have hup := ManagedAccount.update_ok dec ma b t v hv
      have hrest := ih ((ma.update dec b t).2)
        (fun q hq => hok q (List.mem_cons_of_mem _ hq))
      constructor
      · simp only [ManagedAccount.applyUpdates]
        rw [hrest.1, hup]
        simp [Nat.add_assoc, Nat.add_comm 1 rest.length]
      · intro bl tl hlast
        simp only [ManagedAccount.applyUpdates]
        cases rest with
        | nil =>
            simp at hlast
            obtain ⟨hb, ht⟩ := hlast
            subst hb; subst ht
            simp [ManagedAccount.applyUpdates, hup]
        | cons q qs =>
            rw [List.getLast?_cons_cons] at hlast
            exact hrest.2 bl tl hlast

-- ------------------------------------------------------------------ --
-- Claim C3
-- ------------------------------------------------------------------ --

/-- C3: if the record kind's decoder fails on a byte buffer `b`, then
`new_initialized_from_bytes` returns that error and produces no cache,
and `update` on an existing cache returns that error while leaving the
cache's bytes, decoded value, version counter and last-update time
exactly as they were. -/
theorem C3_decode_failure_keeps_state {T : Type}
    (dec : ByteSeq → Except String T) (b : ByteSeq) (e : String)
    (pk : Pubkey) (t0 : Nat) (ma : ManagedAccount T) (tu : Nat)
    (hfail : dec b = .error e) :
    ManagedAccount.new_initialized_from_bytes dec pk b t0 = .error e ∧
    (ma.update dec b tu).1 = .error e ∧
    (ma.update dec b tu).2 = ma ∧
    (ma.update dec b tu).2.bytes = ma.bytes ∧
    (ma.update dec b tu).2.deserialized = ma.deserialized ∧
    (ma.update dec b tu).2.update_slot = ma.update_slot ∧
    (ma.update dec b tu).2.last_update_time = ma.last_update_time := by
  simp [ManagedAccount.new_initialized_from_bytes, ManagedAccount.update, hfail]

/-- Concrete decoder for witnesses: decodes a buffer to its head byte,
failing on the empty buffer. -/
def cDec : ByteSeq → Except String Nat
  | [] => .error "empty buffer"
  | x :: _ => .ok x

/-- A concrete cache value for witnesses. -/
def cMa : ManagedAccount Nat :=
  { pubkey := 3, bytes := [5], deserialized := 5, update_slot := 4,
    last_update_time := 10 }

/-- Witness for C3 at a concrete failing buffer. -/
theorem C3_decode_failure_keeps_state_witness :
    cDec [] = .error "empty buffer" ∧
    (ManagedAccount.new_initialized_from_bytes cDec 3 [] 7 =
        .error "empty buffer" ∧
      (cMa.update cDec [] 9).1 = .error "empty buffer" ∧
      (cMa.update cDec [] 9).2 = cMa ∧
      (cMa.update cDec [] 9).2.bytes = cMa.bytes ∧
      (cMa.update cDec [] 9).2.deserialized = cMa.deserialized ∧
      (cMa.update cDec [] 9).2.update_slot = cMa.update_slot ∧
      (cMa.update cDec [] 9).2.last_update_time = cMa.last_update_time) :=
  ⟨rfl, C3_decode_failure_keeps_state cDec [] "empty buffer" 3 7 cMa 9 rfl⟩

-- ------------------------------------------------------------------ --
-- Claim C7
-- ------------------------------------------------------------------ --

/-- C7: the version counter equals 1 right after a successful
construction, every successful update increments it by exactly one, after
`n` successful updates it equals `1 + n`, and the stored bytes equal the
buffer supplied to the last successful update. -/
theorem C7_version_counter {T : Type} (dec : ByteSeq → Except String T)
    (pk : Pubkey) (b0 : ByteSeq) (t0 : Nat) (ma0 : ManagedAccount T)
    (us : List (ByteSeq × Nat))
    (hc : ManagedAccount.new_initialized_from_bytes dec pk b0 t0 = .ok ma0)
    (hok : ∀ p ∈ us, ∃ v, dec p.1 = .ok v) :
    ma0.update_slot = 1 ∧
    (∀ (ma : ManagedAccount T) b t v, dec b = .ok v →
        ((ma.update dec b t).2).update_slot = ma.update_slot + 1) ∧
    (ManagedAccount.applyUpdates dec ma0 us).update_slot = 1 + us.length ∧
    (∀ bl tl, us.getLast? = some (bl, tl) →
        (ManagedAccount.applyUpdates dec ma0 us).bytes = bl) := by
  have h1 : ma0.update_slot = 1 := by
    cases h0 : dec b0 with
    | error e => simp [ManagedAccount.new_initialized_from_bytes, h0] at hc
    | ok v =>
        simp [ManagedAccount.new_initialized_from_bytes, h0] at hc
        rw [← hc]
  have hchar := ManagedAccount.applyUpdates_char dec us ma0 hok
  refine ⟨h1, ?_, ?_, hchar.2⟩
  · intro ma b t v hv
    rw [ManagedAccount.update_ok dec ma b t v hv]
  · rw [hchar.1, h1, Nat.add_comm]

/-- A concrete freshly-constructed cache for the C7 witness. -/
def cMa0 : ManagedAccount Nat :=
  { pubkey := 3, bytes := [5], deserialized := 5, update_slot := 1,
    last_update_time := 10 }

/-- Witness for C7: three successful updates on a concretely constructed
cache give version 4 and leave the last buffer stored. -/
theorem C7_version_counter_witness :
    ManagedAccount.new_initialized_from_bytes cDec 3 [5] 10 = .ok cMa0 ∧
    (∀ p ∈ [([1], 11), ([2], 12), ([3], 13)], ∃ v, cDec p.1 = .ok v) ∧
    ((ManagedAccount.applyUpdates cDec cMa0
        [([1], 11), ([2], 12), ([3], 13)]).update_slot = 1 + 3 ∧
      (∀ bl tl,
        ([([1], 11), ([2], 12), ([3], 13)] :
            List (ByteSeq × Nat)).getLast? = some (bl, tl) →
        (ManagedAccount.applyUpdates cDec cMa0
          [([1], 11), ([2], 12), ([3], 13)]).bytes = bl)) := by
  have hok : ∀ p ∈ ([([1], 11), ([2], 12), ([3], 13)] :
      List (ByteSeq × Nat)), ∃ v, cDec p.1 = .ok v := by
    intro p hp
    simp only [List.mem_cons, List.not_mem_nil, or_false] at hp
    rcases hp with rfl | rfl | rfl
    exacts [⟨1, rfl⟩, ⟨2, rfl⟩, ⟨3, rfl⟩]
  refine ⟨rfl, hok, ?_⟩
  have h := C7_version_counter cDec 3 [5] 10 cMa0
    [([1], 11), ([2], 12), ([3], 13)] rfl hok
  exact ⟨h.2.2.1, h.2.2.2⟩

-- ------------------------------------------------------------------ --
-- Helper lemmas: the start-index enumeration
-- ------------------------------------------------------------------ --

/-- Once the cursor passes `largest` the loop stops. -/
theorem startLoop_stop (width largest curr : Int) (fuel : Nat)
    (h : ¬ curr ≤ largest) : startLoop width largest curr fuel = [] := by
  cases fuel <;> simp [startLoop, h]

/-- With positive fuel and `curr ≤ largest`, the loop's first element is
the starting cursor. -/
theorem startLoop_head (width largest curr : Int) (fuel : Nat)
    (h : curr ≤ largest) :
    (startLoop width largest curr (fuel + 1)).head? = some curr := by
  simp [startLoop, h]

/-- Any head the loop produces is its starting cursor. -/
theorem startLoop_head_eq (width largest : Int) (fuel : Nat) (curr z : Int)
    (h : (startLoop width largest curr fuel).head? = some z) : z = curr := by
  cases fuel with
  | zero => simp [startLoop] at h
  | succ n =>
      by_cases hc : curr ≤ largest
      · simp [startLoop, hc] at h
        omega
      · simp [startLoop, hc] at h

/-- Consecutive elements of the enumeration differ by exactly `width`. -/
theorem startLoop_chain (width largest : Int) :
    ∀ (fuel : Nat) (curr : Int),
      List.Chain' (fun x y => y = x + width) (startLoop width largest curr fuel) := by
  intro fuel
  induction fuel with
  | zero => intro curr; simp [startLoop]
  | succ n ih =>
      intro curr
      by_cases hc : curr ≤ largest
      · simp only [startLoop, if_pos hc]
        rw [List.chain'_cons']
        refine ⟨?_, ih (curr + width)⟩
        intro y hy
        exact startLoop_head_eq width largest n (curr + width) y hy
      · simp [startLoop, hc]

/-- Starting `k` steps of size `width ≥ 1` below `largest` with fuel at
least `k + 1`, the loop's last element is exactly `largest` (this also
shows `k + 1` fuel is exactly the loop's iteration count). -/
theorem startLoop_getLast (width largest : Int) (hw : 1 ≤ width) :
    ∀ (k fuel : Nat), k + 1 ≤ fuel →
      (startLoop width largest (largest - (k : Int) * width) fuel).getLast? =
        some largest := by
  intro k
  induction k with
  | zero =>
      intro fuel hf
      obtain ⟨f, rfl⟩ : ∃ f, fuel = f + 1 := ⟨fuel - 1, by omega⟩
      simp only [Nat.cast_zero, zero_mul, sub_zero]
      simp only [startLoop, if_pos (le_refl largest)]
      rw [startLoop_stop width largest (largest + width) f (by omega)]
      rfl
  | succ kk ih =>
      intro fuel hf
      obtain ⟨f, rfl⟩ : ∃ f, fuel = f + 1 := ⟨fuel - 1, by omega⟩
      push_cast
      have hc : largest - ((kk : Int) + 1) * width ≤ largest := by nlinarith
      have hstep : largest - ((kk : Int) + 1) * width + width =
          largest - (kk : Int) * width := by ring
      simp only [startLoop, if_pos hc]
      rw [hstep]
      have htail := ih f (by omega)
      cases h : startLoop width largest (largest - (kk : Int) * width) f with
      | nil => rw [h] at htail; simp at htail
      | cons b bs =>
          rw [h] at htail
          rw [List.getLast?_cons_cons]
          exact htail

/-- The address loop is exactly one derivation per enumerated start
index. -/
theorem taLoop_eq_mapM (fpa : Fpa) (pk : Pubkey) (width largest : Int) :
    ∀ (fuel : Nat) (curr : Int),
      taLoop fpa pk width largest curr fuel =
        (startLoop width largest curr fuel).mapM
          (get_tick_array_address fpa pk) := by
  intro fuel
  induction fuel with
  | zero => intro curr; simp only [taLoop, startLoop]; rfl
  | succ n ih =>
      intro curr
      by_cases hc : curr ≤ largest
      · simp only [taLoop, startLoop, if_pos hc, List.mapM_cons]
        cases haddr : get_tick_array_address fpa pk curr with
        | error e =>
            simp [haddr, Bind.bind, Except.bind]
        | ok a =>
            rw [ih (curr + width)]
            cases hrest : (startLoop width largest (curr + width) n).mapM
                (get_tick_array_address fpa pk) with
            | error e => simp [haddr, hrest, Bind.bind, Except.bind]
            | ok rest => simp [haddr, hrest, Bind.bind, Except.bind, Pure.pure, Except.pure]
      · simp only [taLoop, startLoop, if_neg hc]; rfl

-- ------------------------------------------------------------------ --
-- Claim C2
-- ------------------------------------------------------------------ --

/-- The start-index sequence that `get_tick_array_addresses` enumerates
for a given tick spacing: from `div_floor(-443636, W) * W` stepping by
`W = 88 * s` with the loop's exact iteration count as fuel. -/
def tickStartSequence (s : Nat) : List Int :=
  let W : Int := TICK_ARRAY_SIZE * s
  startLoop W (Int.fdiv 443636 W * W) (Int.fdiv (-443636) W * W)
    ((Int.fdiv 443636 W - Int.fdiv (-443636) W).toNat + 1)

/-- C2: for `1 ≤ s ≤ 65535` (the `u16` range) and `W = 88 * s`,
`get_tick_array_addresses` derives exactly one address per start index of
`tickStartSequence s`, whose first element is `floor(-443636 / W) * W`
(floor division), whose consecutive elements step by `W`, and whose last
element is `floor(443636 / W) * W`; in particular for `s = 64`
(`W = 5632`) the first start index is `-79 * 5632`, not `-78 * 5632`. -/
theorem C2_tick_array_enumeration (fpa : Fpa) (pk : Pubkey) (s : Nat)
    (h1 : 1 ≤ s) (h2 : s ≤ 65535) :
    get_tick_array_addresses fpa pk s =
      (tickStartSequence s).mapM (get_tick_array_address fpa pk) ∧
    (tickStartSequence s).head? =
      some (Int.fdiv (-443636) (TICK_ARRAY_SIZE * s) * (TICK_ARRAY_SIZE * s)) ∧
    (tickStartSequence s).getLast? =
      some (Int.fdiv 443636 (TICK_ARRAY_SIZE * s) * (TICK_ARRAY_SIZE * s)) ∧
    List.Chain' (fun x y => y = x + TICK_ARRAY_SIZE * s) (tickStartSequence s) ∧
    (s = 64 → (tickStartSequence s).head? = some (-79 * 5632)) := by
  have hW : (1 : Int) ≤ TICK_ARRAY_SIZE * s := by
    have : (1 : Int) ≤ (s : Int) := by exact_mod_cast h1
    simp only [TICK_ARRAY_SIZE]
    nlinarith
  set W : Int := TICK_ARRAY_SIZE * s with hWdef
  have hWpos : 0 < W := by omega
  set a : Int := Int.fdiv (-443636) W with hadef
  set b : Int := Int.fdiv 443636 W with hbdef
  have hab : a ≤ b := by
    rw [hadef, hbdef, Int.fdiv_eq_ediv _ (by omega), Int.fdiv_eq_ediv _ (by omega)]
    exact Int.ediv_le_ediv hWpos (by omega)
  have hfirst_le : a * W ≤ b * W := by nlinarith
  have hseq : tickStartSequence s =
      startLoop W (b * W) (a * W) ((b - a).toNat + 1) := rfl
  constructor
  · -- one derivation per start index
    rw [hseq]
    rw [← taLoop_eq_mapM]
    simp only [get_tick_array_addresses]
    rw [if_neg (by omega)]
  constructor
  · -- first element
    rw [hseq]
    have := startLoop_head W (b * W) (a * W) ((b - a).toNat) hfirst_le
    exact this
  constructor
  · -- last element
    rw [hseq]
    have hk : a * W = b * W - ((b - a).toNat : Int) * W := by
      have : ((b - a).toNat : Int) = b - a := by omega
      rw [this]; ring
    rw [hk]
    exact startLoop_getLast W (b * W) hW ((b - a).toNat) ((b - a).toNat + 1)
      (le_refl _)
  constructor
  · -- step width
    rw [hseq]
    exact startLoop_chain W (b * W) _ _
  · -- the s = 64 boundary case
    intro hs
    subst hs
    rw [hseq]
    have h64 : W = 5632 := by rw [hWdef]; rfl
    have ha64 : a = -79 := by rw [hadef, h64]; rfl
    have hb64 : b = 78 := by rw [hbdef, h64]; rfl
    rw [h64, ha64, hb64] at hfirst_le ⊢
    have := startLoop_head 5632 (78 * 5632) (-79 * 5632) 157 (by norm_num)
    rw [show ((78 : Int) - -79).toNat + 1 = 157 + 1 by rfl]
    rw [this]

/-- Witness for C2 at `s = 64`. -/
theorem C2_tick_array_enumeration_witness :
    (1 ≤ 64 ∧ 64 ≤ 65535) ∧
    ((tickStartSequence 64).head? = some (-79 * 5632) ∧
      (tickStartSequence 64).getLast? =
        some (Int.fdiv 443636 (TICK_ARRAY_SIZE * 64) * (TICK_ARRAY_SIZE * 64))) := by
  have h := C2_tick_array_enumeration (fun _ _ => some (0, 255)) 1 64
    (by norm_num) (by norm_num)
  exact ⟨⟨by norm_num, by norm_num⟩, h.2.2.2.2 rfl, h.2.2.1⟩

-- ------------------------------------------------------------------ --
-- Claim C9
-- ------------------------------------------------------------------ --

/-- C9: the address-derivation functions are deterministic — equal inputs
give equal (and equally ordered) outputs for `get_tick_array_addresses`,
`get_tick_array_address` and `get_oracle_address`.  In the embedding the
source functions are pure functions of their arguments (they read no
state), so determinism is substitution. -/
theorem C9_derivation_deterministic (fpa : Fpa) (pk1 pk2 : Pubkey)
    (s1 s2 : Nat) (i1 i2 : Int)
    (hpk : pk1 = pk2) (hs : s1 = s2) (hi : i1 = i2) :
    get_tick_array_addresses fpa pk1 s1 = get_tick_array_addresses fpa pk2 s2 ∧
    get_tick_array_address fpa pk1 i1 = get_tick_array_address fpa pk2 i2 ∧
    get_oracle_address fpa pk1 = get_oracle_address fpa pk2 := by
  subst hpk; subst hs; subst hi
  exact ⟨rfl, rfl, rfl⟩

/-- Witness for C9 at concrete equal inputs. -/
theorem C9_derivation_deterministic_witness :
    ((1 : Pubkey) = 1 ∧ (64 : Nat) = 64 ∧ (-443636 : Int) = -443636) ∧
    (get_tick_array_addresses (fun _ _ => some (0, 255)) 1 64 =
        get_tick_array_addresses (fun _ _ => some (0, 255)) 1 64 ∧
      get_oracle_address (fun _ _ => some (0, 255)) 1 =
        get_oracle_address (fun _ _ => some (0, 255)) 1) := by
  have h := C9_derivation_deterministic (fun _ _ => some (0, 255)) 1 1 64 64
    (-443636) (-443636) rfl rfl rfl
  exact ⟨⟨rfl, rfl, rfl⟩, h.1, h.2.2⟩

-- ------------------------------------------------------------------ --
-- Helper lemmas: the refresh loop
-- ------------------------------------------------------------------ --

/-- A failed erased update leaves the member unchanged. -/
theorem dynUpdate_error_eq {TA OR MI : Type} (dc : Decoders TA OR MI)
    (a : DynAcct TA OR MI) (b : ByteSeq) (t : Nat) (e : String)
    (h : (dynUpdate dc a b t).1 = .error e) : (dynUpdate dc a b t).2 = a := by
  obtain ⟨k, ma⟩ := a
  simp only [dynUpdate, ManagedAccount.update] at h ⊢
  cases hdec : dc.deco k b with
  | error e2 => simp [hdec]
  | ok v => rw [hdec] at h; simp at h

/-- An erased update never changes the member's pubkey. -/
theorem dynUpdate_pubkey {TA OR MI : Type} (dc : Decoders TA OR MI)
    (a : DynAcct TA OR MI) (b : ByteSeq) (t : Nat) :
    dynPubkey (dynUpdate dc a b t).2 = dynPubkey a := by
  obtain ⟨k, ma⟩ := a
  simp only [dynUpdate, dynPubkey, ManagedAccount.update]
  cases hdec : dc.deco k b <;> simp [hdec]

/-- The member list the refresh loop produces when every found member
decodes: found members are updated in place, absent members and members
past the end of the response are kept. -/
def updatedList {TA OR MI : Type} (dc : Decoders TA OR MI) (t : Nat) :
    List (DynAcct TA OR MI) → List (Option ByteSeq) → List (DynAcct TA OR MI)
  | [], _ => []
  | a :: rest, [] => a :: rest
  | a :: rest, none :: os => a :: updatedList dc t rest os
  | a :: rest, some b :: os => (dynUpdate dc a b t).2 :: updatedList dc t rest os

/-- `updatedList` member-wise: an absent (or out-of-response) position is
unchanged, a found position carries the updated member. -/
theorem updatedList_get {TA OR MI : Type} (dc : Decoders TA OR MI) (t : Nat) :
    ∀ (acs : List (DynAcct TA OR MI)) (os : List (Option ByteSeq)) (k : Nat)
      (a : DynAcct TA OR MI), acs.get? k = some a →
      ((os.get? k = none ∨ os.get? k = some none →
          (updatedList dc t acs os).get? k = some a) ∧
       (∀ b, os.get? k = some (some b) →
          (updatedList dc t acs os).get? k = some (dynUpdate dc a b t).2)) := by
  intro acs
  induction acs with
  | nil => intro os k a ha; simp at ha
  | cons a0 rest ih =>
      intro os k a ha
      cases os with
      | nil =>
          refine ⟨fun _ => ?_, fun b hb => ?_⟩
          · simpa [updatedList] using ha
          · simp at hb
      | cons o os1 =>
          cases k with
          | zero =>
              simp at ha
              subst ha
              cases o with
              | none =>
                  refine ⟨fun _ => ?_, fun b hb => ?_⟩
                  · simp [updatedList]
                  · simp at hb
              | some b0 =>
                  refine ⟨fun hcon => ?_, fun b hb => ?_⟩
                  · simp at hcon
                  · simp at hb
                    subst hb
                    simp [updatedList]
          | succ kk =>
              simp only [List.get?_cons_succ] at ha
              have := ih os1 kk a ha
              cases o with
              | none =>
                  exact ⟨fun h1 => by
                      simpa [updatedList] using this.1 (by simpa using h1),
                    fun b hb => by
                      simpa [updatedList] using this.2 b (by simpa using hb)⟩
              | some b0 =>
                  exact ⟨fun h1 => by
                      simpa [updatedList] using this.1 (by simpa using h1),
                    fun b hb => by
                      simpa [updatedList] using this.2 b (by simpa using hb)⟩

/-- `updatedList` preserves length. -/
theorem updatedList_length {TA OR MI : Type} (dc : Decoders TA OR MI) (t : Nat) :
    ∀ (acs : List (DynAcct TA OR MI)) (os : List (Option ByteSeq)),
      (updatedList dc t acs os).length = acs.length := by
  intro acs
  induction acs with
  | nil => intro os; simp [updatedList]
  | cons a0 rest ih =>
      intro os
      cases os with
      | nil => simp [updatedList]
      | cons o os1 => cases o <;> simp [updatedList, ih]

/-- The refresh loop preserves the member pubkey sequence. -/
theorem refreshLoop_map_pubkey {TA OR MI : Type} (dc : Decoders TA OR MI)
    (t : Nat) :
    ∀ (acs : List (DynAcct TA OR MI)) (os : List (Option ByteSeq)),
      (refreshLoop dc t acs os).2.map dynPubkey = acs.map dynPubkey := by
  intro acs
  induction acs with
  | nil => intro os; cases os <;> simp [refreshLoop]
  | cons a0 rest ih =>
      intro os
      cases os with
      | nil => simp [refreshLoop]
      | cons o os1 =>
          cases o with
          | none => simp [refreshLoop, ih]
          | some b =>
              simp only [refreshLoop]
              cases hu : (dynUpdate dc a0 b t).1 with
              | error e =>
                  rw [show dynUpdate dc a0 b t =
                      (.error e, (dynUpdate dc a0 b t).2) from by rw [← hu]]
                  simp [dynUpdate_error_eq dc a0 b t e hu]
              | ok u =>
                  rw [show dynUpdate dc a0 b t =
                      (.ok u, (dynUpdate dc a0 b t).2) from by rw [← hu]]
                  simp [ih, dynUpdate_pubkey]

/-- If every found member decodes, the refresh loop succeeds and produces
exactly `updatedList`. -/
theorem refreshLoop_all_ok {TA OR MI : Type} (dc : Decoders TA OR MI) (t : Nat) :
    ∀ (acs : List (DynAcct TA OR MI)) (os : List (Option ByteSeq)),
      (∀ k a b, acs.get? k = some a → os.get? k = some (some b) →
        (dynUpdate dc a b t).1 = .ok ()) →
      refreshLoop dc t acs os = (.ok (), updatedList dc t acs os) := by
  intro acs
  induction acs with
  | nil => intro os hok; cases os <;> simp [refreshLoop, updatedList]
  | cons a0 rest ih =>
      intro os hok
      cases os with
      | nil => simp [refreshLoop, updatedList]
      | cons o os1 =>
          have htail := ih os1 (fun k a b ha hb =>
            hok (k + 1) a b (by simpa using ha) (by simpa using hb))
          cases o with
          | none =>
              simp only [refreshLoop, updatedList, htail]
          | some b =>
              have h0 : (dynUpdate dc a0 b t).1 = .ok () :=
                hok 0 a0 b rfl rfl
              simp only [refreshLoop, updatedList]
              rw [show dynUpdate dc a0 b t = (.ok (), (dynUpdate dc a0 b t).2) from by
                rw [← h0]]
              simp only [htail]

/-- If the first failing member sits at position `j` (every found member
before it decodes, the member at `j` is found and fails), the refresh
loop aborts with that error, the prefix before `j` is `updatedList` of
the prefix, and everything from `j` on is untouched. -/
theorem refreshLoop_first_fail {TA OR MI : Type} (dc : Decoders TA OR MI)
    (t : Nat) :
    ∀ (j : Nat) (acs : List (DynAcct TA OR MI)) (os : List (Option ByteSeq))
      (aj : DynAcct TA OR MI) (bj : ByteSeq) (e : String),
      acs.get? j = some aj → os.get? j = some (some bj) →
      (dynUpdate dc aj bj t).1 = .error e →
      (∀ k a b, k < j → acs.get? k = some a → os.get? k = some (some b) →
        (dynUpdate dc a b t).1 = .ok ()) →
      refreshLoop dc t acs os =
        (.error e, updatedList dc t (acs.take j) (os.take j) ++ acs.drop j) := by
  intro j
  induction j with
  | zero =>
      intro acs os aj bj e ha hb hfail _
      cases acs with
      | nil => simp at ha
      | cons a0 rest =>
          cases os with
          | nil => simp at hb
          | cons o os1 =>
              simp at ha hb
              subst ha; subst hb
              simp only [refreshLoop, List.take_zero, List.drop_zero]
              rw [show dynUpdate dc a0 bj t = (.error e, (dynUpdate dc a0 bj t).2) from by
                rw [← hfail]]
              simp only [updatedList, List.nil_append]
              rw [dynUpdate_error_eq dc a0 bj t e hfail]
  | succ jj ih =>
      intro acs os aj bj e ha hb hfail hpre
      cases acs with
      | nil => simp at ha
      | cons a0 rest =>
          cases os with
          | nil => simp at hb
          | cons o os1 =>
              simp only [List.get?_cons_succ] at ha hb
              have htail := ih rest os1 aj bj e ha hb hfail
                (fun k a b hk hka hkb =>
                  hpre (k + 1) a b (by omega) (by simpa using hka)
                    (by simpa using hkb))
              cases o with
              | none =>
                  simp only [refreshLoop, htail, List.take_succ_cons,
                    List.drop_succ_cons, updatedList, List.cons_append]
              | some b =>
                  have h0 : (dynUpdate dc a0 b t).1 = .ok () :=
                    hpre 0 a0 b (by omega) rfl rfl
                  simp only [refreshLoop]
                  rw [show dynUpdate dc a0 b t = (.ok (), (dynUpdate dc a0 b t).2) from by
                    rw [← h0]]
                  simp only [htail, List.take_succ_cons, List.drop_succ_cons,
                    updatedList, List.cons_append]

-- ------------------------------------------------------------------ --
-- Claim C8
-- ------------------------------------------------------------------ --

/-- C8: the member-key sequence of `accounts()` is the fixed, stable
sequence — primary whirlpool first, then mint A, mint B, then the tick
arrays in stored (derivation) order, then the oracle last when present —
and refresh never adds, removes or reorders members: the post-refresh
member list carries exactly the same pubkey sequence. -/
theorem C8_member_sequence_stable {TA OR MI : Type} (dc : Decoders TA OR MI)
    (prov : RpcProvider) (p : OrcaWhirlpool TA OR MI) :
    p.accounts.map dynPubkey =
      p.whirlpool.pubkey :: p.mint_a.pubkey :: p.mint_b.pubkey ::
        (p.tick_arrays.map ManagedAccount.pubkey ++
         (match p.oracle with
          | some o => [o.pubkey]
          | none => [])) ∧
    (p.refresh dc prov).2.1.map dynPubkey = p.accounts.map dynPubkey := by
  constructor
  · cases ho : p.oracle <;>
      simp [OrcaWhirlpool.accounts, dynPubkey, ho]
  · simp only [OrcaWhirlpool.refresh]
    cases hr : prov.getMultipleAccounts (p.accounts.map dynPubkey) with
    | error e => simp
    | ok resp => simp [refreshLoop_map_pubkey]

-- ------------------------------------------------------------------ --
-- Claim C6
-- ------------------------------------------------------------------ --

/-- C6: a member whose batched fetch comes back absent (`None`) is left
entirely unchanged by refresh — same bytes, decoded value, version and
last-update time (the full cache record is equal) — and, provided every
found member decodes, the refresh call as a whole returns success. -/
theorem C6_absent_member_unchanged {TA OR MI : Type} (dc : Decoders TA OR MI)
    (prov : RpcProvider) (p : OrcaWhirlpool TA OR MI)
    (os : List (Option ByteSeq)) (t j : Nat) (aj : DynAcct TA OR MI)
    (hresp : prov.getMultipleAccounts (p.accounts.map dynPubkey) = .ok ⟨os, t⟩)
    (haj : p.accounts.get? j = some aj)
    (hj : os.get? j = some none)
    (hok : ∀ k a b, p.accounts.get? k = some a → os.get? k = some (some b) →
      (dynUpdate dc a b t).1 = .ok ()) :
    (p.refresh dc prov).1 = .ok () ∧
    (p.refresh dc prov).2.1.get? j = some aj := by
  have hloop := refreshLoop_all_ok dc t p.accounts os hok
  have hget := (updatedList_get dc t p.accounts os j aj haj).1 (Or.inr hj)
  constructor
  · simp only [OrcaWhirlpool.refresh, hresp]
    simp [hloop]
  · have h2 : (p.refresh dc prov).2.1 = updatedList dc t p.accounts os := by
      simp only [OrcaWhirlpool.refresh, hresp]
      simp [hloop]
    rw [h2]
    exact hget

-- ------------------------------------------------------------------ --
-- Claim C4
-- ------------------------------------------------------------------ --

/-- C4: if the member at position `j` is found but its new bytes fail to
decode (and every found member before it decodes), refresh returns that
error; every member updated before `j` keeps its newly applied value (no
rollback), the failing member keeps its previous record, and members
after `j` are not updated at all. -/
theorem C4_refresh_decode_failure {TA OR MI : Type} (dc : Decoders TA OR MI)
    (prov : RpcProvider) (p : OrcaWhirlpool TA OR MI)
    (os : List (Option ByteSeq)) (t j : Nat) (aj : DynAcct TA OR MI)
    (bj : ByteSeq) (e : String)
    (hresp : prov.getMultipleAccounts (p.accounts.map dynPubkey) = .ok ⟨os, t⟩)
    (haj : p.accounts.get? j = some aj)
    (hbj : os.get? j = some (some bj))
    (hfail : (dynUpdate dc aj bj t).1 = .error e)
    (hpre : ∀ k a b, k < j → p.accounts.get? k = some a →
      os.get? k = some (some b) → (dynUpdate dc a b t).1 = .ok ()) :
    (p.refresh dc prov).1 = .error e ∧
    (p.refresh dc prov).2.1.get? j = some aj ∧
    (∀ k, j < k → (p.refresh dc prov).2.1.get? k = p.accounts.get? k) ∧
    (∀ k a b, k < j → p.accounts.get? k = some a →
      os.get? k = some (some b) →
      (p.refresh dc prov).2.1.get? k = some (dynUpdate dc a b t).2) ∧
    (∀ k a, k < j → p.accounts.get? k = some a → os.get? k = some none →
      (p.refresh dc prov).2.1.get? k = some a) := by
  have hloop := refreshLoop_first_fail dc t j p.accounts os aj bj e haj hbj
    hfail hpre
  obtain ⟨hj_lt, -⟩ := List.get?_eq_some.mp haj
  have hplen : (updatedList dc t (p.accounts.take j) (os.take j)).length = j := by
    rw [updatedList_length, List.length_take]
    obtain ⟨hj_os, -⟩ := List.get?_eq_some.mp hbj
    omega
  have hR2 : (p.refresh dc prov).2.1 =
      updatedList dc t (p.accounts.take j) (os.take j) ++ p.accounts.drop j := by
    simp only [OrcaWhirlpool.refresh, hresp]
    simp [hloop]
  have hR1 : (p.refresh dc prov).1 = .error e := by
    simp only [OrcaWhirlpool.refresh, hresp]
    simp [hloop]
  refine ⟨hR1, ?_, ?_, ?_, ?_⟩
  · rw [hR2, List.get?_append_right (by omega), hplen, Nat.sub_self,
      List.get?_drop]
    simpa using haj
  · intro k hk
    rw [hR2, List.get?_append_right (by omega), hplen, List.get?_drop,
      show j + (k - j) = k by omega]
  · intro k a b hk hka hkb
    rw [hR2, List.get?_append (by omega)]
    have hta : (p.accounts.take j).get? k = some a := by
      rw [List.get?_take hk]; exact hka
    have htb : (os.take j).get? k = some (some b) := by
      rw [List.get?_take hk]; exact hkb
    exact (updatedList_get dc t (p.accounts.take j) (os.take j) k a hta).2 b htb
  · intro k a hk hka hkb
    rw [hR2, List.get?_append (by omega)]
    have hta : (p.accounts.take j).get? k = some a := by
      rw [List.get?_take hk]; exact hka
    have htb : (os.take j).get? k = some none := by
      rw [List.get?_take hk]; exact hkb
    exact (updatedList_get dc t (p.accounts.take j) (os.take j) k a hta).1
      (Or.inr htb)

-- ------------------------------------------------------------------ --
-- Concrete instances for witnesses and counterexamples
-- ------------------------------------------------------------------ --

/-- Concrete all-accepting decoders over unit payloads; the decoded
whirlpool has mints 11 and 12 and tick spacing 6000. -/
def cDcAll : Decoders Unit Unit Unit :=
  { whirl := fun _ =>
      .ok { token_mint_a := 11, token_mint_b := 12, tick_spacing := 6000 }
    tick := fun _ => .ok ()
    orac := fun _ => .ok ()
    mint := fun _ => .ok () }

/-- Concrete decoders whose tick decoder rejects the buffer `[9]`. -/
def cDcBad : Decoders Unit Unit Unit :=
  { whirl := fun _ =>
      .ok { token_mint_a := 11, token_mint_b := 12, tick_spacing := 6000 }
    tick := fun b => if b = [9] then .error "bad tick" else .ok ()
    orac := fun _ => .ok ()
    mint := fun _ => .ok () }

/-- A concrete tick-array cache for witness pools. -/
def cTick (pk : Pubkey) : ManagedAccount Unit :=
  { pubkey := pk, bytes := [], deserialized := (), update_slot := 1,
    last_update_time := 0 }

/-- The concrete primary whirlpool cache for witness pools. -/
def cWhirlMA : ManagedAccount WhirlpoolData :=
  { pubkey := 1
    bytes := [0]
    deserialized := { token_mint_a := 11, token_mint_b := 12,
                      tick_spacing := 6000 }
    update_slot := 1
    last_update_time := 0 }

/-- A concrete mint cache for witness pools. -/
def cMint (pk : Pubkey) : ManagedAccount Unit :=
  { pubkey := pk, bytes := [], deserialized := (), update_slot := 1,
    last_update_time := 0 }

/-- A concrete five-member pool: whirlpool 1, mints 11 and 12, tick
arrays 21 and 22, no oracle. -/
def cPool : OrcaWhirlpool Unit Unit Unit :=
  { whirlpool := cWhirlMA
    tick_arrays := [cTick 21, cTick 22]
    oracle := none
    mint_a := cMint 11
    mint_b := cMint 12 }

/-- A concrete derivation: oracle seeds map to `600 + pool key`,
tick-array seeds to a pool- and index-dependent code. -/
def cFpa : Fpa := fun seeds _pid =>
  match seeds with
  | [Seed.lit "oracle", Seed.key pkk] => some (600 + pkk, 255)
  | [Seed.lit "tick_array", Seed.key pkk, Seed.int i] =>
      some (1000000 * (pkk + 1) + (i + 600000).toNat, 254)
  | _ => none

/-- A cap-2 provider that finds the primary account and reports every
batched key absent. -/
def cProvCap2 : RpcProvider :=
  { getAccount := fun k => if k = 1 then .ok ⟨[0], 7⟩ else .error "not found"
    getMultipleAccounts := fun ks => .ok ⟨ks.map (fun _ => none), 9⟩
    maxAccountsPerRpcCall := 2 }

/-- The batched response used by the C6 witness: the third member (mint
B) comes back absent, everything else is found with buffer `[7]`. -/
def cOs6 : List (Option ByteSeq) :=
  [some [7], some [7], none, some [7], some [7]]

/-- Provider for the C6 witness. -/
def cProvC6 : RpcProvider :=
  { getAccount := fun _ => .error "x"
    getMultipleAccounts := fun _ => .ok ⟨cOs6, 5⟩
    maxAccountsPerRpcCall := 100 }

/-- The batched response used by the C4 witness: the fourth member (tick
array 21) is found with the rejected buffer `[9]`. -/
def cOs4 : List (Option ByteSeq) :=
  [some [7], some [7], some [7], some [9], some [7]]

/-- Provider for the C4 witness. -/
def cProvC4 : RpcProvider :=
  { getAccount := fun _ => .error "x"
    getMultipleAccounts := fun _ => .ok ⟨cOs4, 5⟩
    maxAccountsPerRpcCall := 100 }

/-- Witness for C6: mint B's fetch comes back absent, refresh succeeds
and leaves mint B's cache record unchanged. -/
theorem C6_absent_member_unchanged_witness :
    cProvC6.getMultipleAccounts (cPool.accounts.map dynPubkey) = .ok ⟨cOs6, 5⟩ ∧
    cPool.accounts.get? 2 = some ⟨Kind.mintK, cPool.mint_b⟩ ∧
    cOs6.get? 2 = some none ∧
    ((cPool.refresh cDcAll cProvC6).1 = .ok () ∧
      (cPool.refresh cDcAll cProvC6).2.1.get? 2 =
        some ⟨Kind.mintK, cPool.mint_b⟩) := by
  have hok : ∀ k a b, cPool.accounts.get? k = some a →
      cOs6.get? k = some (some b) → (dynUpdate cDcAll a b 5).1 = .ok () := by
    intro k a b _ _
    obtain ⟨kk, ma⟩ := a
    cases kk <;> rfl
  exact ⟨rfl, rfl, rfl,
    C6_absent_member_unchanged cDcAll cProvC6 cPool cOs6 5 2
      ⟨Kind.mintK, cPool.mint_b⟩ rfl rfl rfl hok⟩

/-- Witness for C4: tick array 21's new bytes fail to decode; refresh
reports the error, the members updated before it keep their new values,
the failing member keeps its old record, and the member after it is not
updated. -/
theorem C4_refresh_decode_failure_witness :
    cProvC4.getMultipleAccounts (cPool.accounts.map dynPubkey) = .ok ⟨cOs4, 5⟩ ∧
    cPool.accounts.get? 3 = some ⟨Kind.tickK, cTick 21⟩ ∧
    cOs4.get? 3 = some (some [9]) ∧
    (dynUpdate cDcBad ⟨Kind.tickK, cTick 21⟩ [9] 5).1 = .error "bad tick" ∧
    ((cPool.refresh cDcBad cProvC4).1 = .error "bad tick" ∧
      (cPool.refresh cDcBad cProvC4).2.1.get? 3 = some ⟨Kind.tickK, cTick 21⟩ ∧
      (cPool.refresh cDcBad cProvC4).2.1.get? 4 = cPool.accounts.get? 4 ∧
      (cPool.refresh cDcBad cProvC4).2.1.get? 1 =
        some (dynUpdate cDcBad ⟨Kind.mintK, cPool.mint_a⟩ [7] 5).2) := by
  have hpre : ∀ k a b, k < 3 → cPool.accounts.get? k = some a →
      cOs4.get? k = some (some b) → (dynUpdate cDcBad a b 5).1 = .ok () := by
    intro k a b hk hka hkb
    match k, hk with
    | 0, _ => injection hka with h; subst h; rfl
    | 1, _ => injection hka with h; subst h; rfl
    | 2, _ => injection hka with h; subst h; rfl
  have h := C4_refresh_decode_failure cDcBad cProvC4 cPool cOs4 5 3
    ⟨Kind.tickK, cTick 21⟩ [9] "bad tick" rfl rfl rfl rfl hpre
  exact ⟨rfl, rfl, rfl, rfl, h.1, h.2.1, h.2.2.1 4 (by omega),
    h.2.2.2.1 1 ⟨Kind.mintK, cPool.mint_a⟩ [7] (by omega) rfl rfl⟩

-- ------------------------------------------------------------------ --
-- Helper lemmas: chunking and the batched-call logs
-- ------------------------------------------------------------------ --

/-- Every chunk produced by the chunking loop has at most `n` elements. -/
theorem chunksF_length_le {α : Type} :
    ∀ (fuel n : Nat) (l : List α) (c : List α),
      c ∈ chunksF fuel n l → c.length ≤ n := by
  intro fuel
  induction fuel with
  | zero => intro n l c hc; simp [chunksF] at hc
  | succ f ih =>
      intro n l c hc
      cases l with
      | nil => simp [chunksF] at hc
      | cons x xs =>
          simp only [chunksF, List.mem_cons] at hc
          cases hc with
          | inl h =>
              subst h
              calc ((x :: xs).take n).length = min n (x :: xs).length :=
                    List.length_take n (x :: xs)
                _ ≤ n := Nat.min_le_left _ _
          | inr h => exact ih n ((x :: xs).drop n) c h

/-- Every batched call the construction fetch loop issues is one of the
chunks it was given. -/
theorem buildMapGo_log_mem (prov : RpcProvider) :
    ∀ (cs : List (List Pubkey)) (m : AccountMap) (c : List Pubkey),
      c ∈ (buildMapGo prov m cs).2 → c ∈ cs := by
  intro cs
  induction cs with
  | nil => intro m c hc; simp [buildMapGo] at hc
  | cons chunk cs1 ih =>
      intro m c hc
      simp only [buildMapGo] at hc
      split at hc
      · simp at hc; simp [hc]
      · split at hc
        · simp at hc; simp [hc]
        · simp only [List.mem_cons] at hc
          cases hc with
          | inl h => simp [h]
          | inr h =>
              rename_i m1 heq
              exact List.mem_cons_of_mem _ (ih m1 c h)

-- ------------------------------------------------------------------ --
-- Claim C1
-- ------------------------------------------------------------------ --

/-- Counterexample to C1 as stated: on the concrete five-member pool and
a provider whose batch cap is 2, refresh issues a single batched
`get_multiple_accounts` over all five member keys — more keys than the
provider's cap — instead of partitioning into chunks of at most the
cap. -/
theorem C1_refresh_chunking_counterexample :
    ¬ (∀ c ∈ (cPool.refresh cDcAll cProvCap2).2.2,
        c.length ≤ cProvCap2.maxAccountsPerRpcCall) := by decide

/-- C1 amended: the chunking guarantee holds only for construction.
`refresh` issues exactly one batched `get_multiple_accounts` whose key
list is the entire member list, regardless of the provider's cap
(chunking is delegated to the provider implementation), while
`new_initialized_from_rpc` partitions its dependent fetch into batched
calls of at most `max_accounts_per_rpc_call` keys each. -/
theorem C1_chunking_amended {TA OR MI : Type} (dc : Decoders TA OR MI)
    (prov : RpcProvider) (p : OrcaWhirlpool TA OR MI) (fpa : Fpa)
    (pk : Pubkey) :
    (p.refresh dc prov).2.2 = [p.accounts.map dynPubkey] ∧
    (∀ c ∈ (OrcaWhirlpool.new_initialized_from_rpc dc fpa pk prov).2,
      c.length ≤ prov.maxAccountsPerRpcCall) := by
  constructor
  · simp only [OrcaWhirlpool.refresh]
    cases hr : prov.getMultipleAccounts (p.accounts.map dynPubkey) <;> simp
  · intro c hc
    simp only [OrcaWhirlpool.new_initialized_from_rpc] at hc
    split at hc
    · simp at hc
    · split at hc
      · simp at hc
      · split at hc
        · simp at hc
        · split at hc
          · simp at hc
          · split at hc
            · rename_i heq
              have hmem := buildMapGo_log_mem prov _ [] c (by rw [heq]; exact hc)
              exact chunksF_length_le _ _ _ c hmem
            · rename_i heq
              have hmem := buildMapGo_log_mem prov _ [] c (by rw [heq]; exact hc)
              exact chunksF_length_le _ _ _ c hmem

/-- Witness for the amended C1: concretely, refresh's only batched call
is the full five-key member list, and a construction chunk (the first,
`[11, 12]`) respects the cap of 2. -/
theorem C1_chunking_amended_witness :
    (cPool.refresh cDcAll cProvCap2).2.2 = [cPool.accounts.map dynPubkey] ∧
    [11, 12] ∈ (OrcaWhirlpool.new_initialized_from_rpc cDcAll cFpa
        1 cProvCap2).2 ∧
    ([11, 12] : List Pubkey).length ≤ cProvCap2.maxAccountsPerRpcCall := by
  have h := C1_chunking_amended cDcAll cProvCap2 cPool cFpa 1
  have hmem : [11, 12] ∈ (OrcaWhirlpool.new_initialized_from_rpc cDcAll cFpa
      1 cProvCap2).2 := by decide
  exact ⟨h.1, hmem, h.2 [11, 12] hmem⟩

-- ------------------------------------------------------------------ --
-- Helper lemmas: the account map
-- ------------------------------------------------------------------ --

/-- Inserting a key makes it found. -/
theorem amFind_amInsert_self (m : AccountMap) (k : Pubkey)
    (v : ByteSeq × Nat) : amFind (amInsert m k v) k = some v := by
  simp [amFind, amInsert, List.find?]

/-- Erasing one key does not affect lookups of another. -/
theorem amFind_amErase_ne (m : AccountMap) (k1 k : Pubkey) (h : k1 ≠ k) :
    amFind (amErase m k1) k = amFind m k := by
  induction m with
  | nil => rfl
  | cons e rest ih =>
      by_cases he : e.1 = k1
      · have hek : (e.1 == k) = false := by
          simp [he, h]
        simp only [amErase, List.filter] at ih ⊢
        rw [show (!(e.1 == k1)) = false by simp [he]]
        simp only [amFind, List.find?, hek] at ih ⊢
        exact ih
      · simp only [amErase, List.filter] at ih ⊢
        rw [show (!(e.1 == k1)) = true by simp [he]]
        by_cases hek : e.1 = k
        · simp [amFind, List.find?, hek]
        · simp only [amFind, List.find?,
            show (e.1 == k) = false by simp [hek]] at ih ⊢
          exact ih

/-- Erasing a key makes it absent. -/
theorem amFind_amErase_self (m : AccountMap) (k : Pubkey) :
    amFind (amErase m k) k = none := by
  induction m with
  | nil => rfl
  | cons e rest ih =>
      by_cases he : e.1 = k
      · simp only [amErase, List.filter] at ih ⊢
        rw [show (!(e.1 == k)) = false by simp [he]]
        exact ih
      · simp only [amErase, List.filter] at ih ⊢
        rw [show (!(e.1 == k)) = true by simp [he]]
        simp only [amFind, List.find?, show (e.1 == k) = false by simp [he]] at ih ⊢
        exact ih

/-- Inserting a different key does not affect a lookup. -/
theorem amFind_amInsert_ne (m : AccountMap) (k1 k : Pubkey)
    (v : ByteSeq × Nat) (h : k1 ≠ k) :
    amFind (amInsert m k1 v) k = amFind m k := by
  simp only [amFind, amInsert, List.find?, show (k1 == k) = false by simp [h]]
  exact amFind_amErase_ne m k1 k h

-- ------------------------------------------------------------------ --
-- Helper lemmas: the merged fetch map under a table provider
-- ------------------------------------------------------------------ --

/-- The pure effect of the per-chunk insert loop when the provider
answers from a fixed table `data`: insert `(data k, t0)` for each key
with data, left to right. -/
def foldIns (data : Pubkey → Option ByteSeq) (t0 : Nat) (m : AccountMap) :
    List Pubkey → AccountMap
  | [] => m
  | k :: ks =>
      foldIns data t0
        (match data k with
         | some b => amInsert m k (b, t0)
         | none => m) ks

/-- `foldIns` composes over appended key lists. -/
theorem foldIns_append (data : Pubkey → Option ByteSeq) (t0 : Nat) :
    ∀ (l1 l2 : List Pubkey) (m : AccountMap),
      foldIns data t0 m (l1 ++ l2) = foldIns data t0 (foldIns data t0 m l1) l2 := by
  intro l1
  induction l1 with
  | nil => intro l2 m; rfl
  | cons k ks ih =>
      intro l2 m
      simp only [List.cons_append, foldIns]
      exact ih l2 _

/-- The insert loop over the suffix of a chunk starting at the suffix's
offset, when the responses are the chunk's mapped table entries, is
`foldIns` of that suffix. -/
theorem insertLoop_table (data : Pubkey → Option ByteSeq) (t0 : Nat) :
    ∀ (suf pre : List Pubkey) (m : AccountMap),
      insertLoop (pre ++ suf) t0 m (suf.map data) pre.length =
        .ok (foldIns data t0 m suf) := by
  intro suf
  induction suf with
  | nil => intro pre m; rfl
  | cons k ks ih =>
      intro pre m
      have hget : (pre ++ k :: ks).get? pre.length = some k := by
        rw [List.get?_append_right (le_refl pre.length), Nat.sub_self]
        rfl
      have happ : pre ++ k :: ks = (pre ++ [k]) ++ ks := by simp
      have hlen : pre.length + 1 = (pre ++ [k]).length := by simp
      cases hdk : data k with
      | none =>
          simp only [List.map_cons, hdk, insertLoop, foldIns]
          rw [hlen, happ]
          exact ih (pre ++ [k]) m
      | some b =>
          simp only [List.map_cons, hdk, insertLoop, hget, foldIns]
          rw [hlen, happ]
          exact ih (pre ++ [k]) (amInsert m k (b, t0))

/-- The chunked fetch loop under a table provider: it succeeds, issues
exactly the given chunks, and merges to `foldIns` of the concatenated
chunks. -/
theorem buildMapGo_table (prov : RpcProvider) (data : Pubkey → Option ByteSeq)
    (t0 : Nat)
    (hmulti : ∀ ks, prov.getMultipleAccounts ks = .ok ⟨ks.map data, t0⟩) :
    ∀ (cs : List (List Pubkey)) (m : AccountMap),
      buildMapGo prov m cs = (.ok (foldIns data t0 m cs.flatten), cs) := by
  intro cs
  induction cs with
  | nil => intro m; simp [buildMapGo, foldIns]
  | cons c cs1 ih =>
      intro m
      have hins : insertLoop c t0 m (c.map data) 0 = .ok (foldIns data t0 m c) :=
        insertLoop_table data t0 c [] m
      simp only [buildMapGo, hmulti c, hins, ih (foldIns data t0 m c)]
      simp [foldIns_append]

/-- Concatenating the chunks gives back the original list. -/
theorem chunksF_join {α : Type} :
    ∀ (fuel n : Nat) (l : List α), l.length ≤ fuel → n ≠ 0 →
      (chunksF fuel n l).flatten = l := by
  intro fuel
  induction fuel with
  | zero =>
      intro n l hl _
      have : l = [] := List.eq_nil_of_length_eq_zero (by omega)
      subst this
      rfl
  | succ f ih =>
      intro n l hl hn
      cases l with
      | nil => rfl
      | cons x xs =>
          rw [show chunksF (f + 1) n (x :: xs) =
              (x :: xs).take n :: chunksF f n ((x :: xs).drop n) from rfl]
          rw [List.flatten_cons]
          have hdrop : ((x :: xs).drop n).length ≤ f := by
            rw [List.length_drop]
            omega
          rw [ih n ((x :: xs).drop n) hdrop hn]
          exact List.take_append_drop n (x :: xs)

/-- `chunks` concatenates back to the original list (for a nonzero chunk
size). -/
theorem chunks_flatten {α : Type} (n : Nat) (l : List α) (hn : n ≠ 0) :
    (chunks n l).flatten = l :=
  chunksF_join l.length n l (le_refl _) hn

/-- Lookup in the merged map built from a table: a key fetched with data
maps to `(its bytes, t0)`; a key without data (or never fetched) falls
through to the initial map. -/
theorem amFind_foldIns (data : Pubkey → Option ByteSeq) (t0 : Nat) :
    ∀ (ks : List Pubkey) (m : AccountMap) (k : Pubkey),
      amFind (foldIns data t0 m ks) k =
        match data k with
        | some b => if k ∈ ks then some (b, t0) else amFind m k
        | none => amFind m k := by
  intro ks
  induction ks with
  | nil =>
      intro m k
      cases hdk : data k <;> simp [foldIns]
  | cons k0 ks1 ih =>
      intro m k
      simp only [foldIns]
      rw [ih]
      by_cases hkk : k = k0
      · subst hkk
        cases hdk : data k with
        | none => simp [hdk]
        | some b =>
            simp only [hdk, List.mem_cons, true_or, if_true]
            by_cases hmem : k ∈ ks1
            · rw [if_pos hmem]
            · rw [if_neg hmem, amFind_amInsert_self]
      · have hmemiff : (k ∈ k0 :: ks1) = (k ∈ ks1) := by simp [hkk]
        cases hdk0 : data k0 with
        | none => cases hdk : data k <;> simp [hdk, hmemiff]
        | some b0 =>
            have hf := amFind_amInsert_ne m k0 k (b0, t0)
              (fun hc => hkk (hc ▸ rfl))
            cases hdk : data k with
            | none => simp [hdk, hf]
            | some b => simp [hdk, hmemiff, hf]

-- ------------------------------------------------------------------ --
-- Helper lemmas: the tick-array construction loop under a table
-- ------------------------------------------------------------------ --

/-- The tick-array loop under a table of fetch results: every derived
key with data (all of which must decode) yields one cache, every derived
key without data yields one `TickArray` failure record, in derivation
order. -/
theorem ticksLoop_table {TA OR MI : Type} (dc : Decoders TA OR MI)
    (data : Pubkey → Option ByteSeq) (t0 : Nat) :
    ∀ (tks : List Pubkey) (m : AccountMap),
      (∀ k, k ∈ tks → amFind m k = (data k).map (fun b => (b, t0))) →
      tks.Nodup →
      (∀ k b, k ∈ tks → data k = some b → ∃ v, dc.tick b = .ok v) →
      ∃ tas, ticksLoop dc m tks = .ok (tas,
          (tks.filter (fun k => (data k).isNone)).map
            (fun k => { pubkey := k, account_type := "TickArray" })) ∧
        tas.map ManagedAccount.pubkey =
          tks.filter (fun k => (data k).isSome) := by
  intro tks
  induction tks with
  | nil => intro m _ _ _; exact ⟨[], rfl, rfl⟩
  | cons k0 ks ih =>
      intro m hfind hnd hdec
      have hf0 := hfind k0 (List.mem_cons_self _ _)
      have hnd1 : ks.Nodup := (List.nodup_cons.mp hnd).2
      have hk0 : k0 ∉ ks := (List.nodup_cons.mp hnd).1
      have hfind1 : ∀ k, k ∈ ks → amFind (amErase m k0) k =
          (data k).map (fun b => (b, t0)) := by
        intro k hk
        rw [amFind_amErase_ne m k0 k (fun hc => hk0 (hc ▸ hk))]
        exact hfind k (List.mem_cons_of_mem _ hk)
      have hdec1 : ∀ k b, k ∈ ks → data k = some b → ∃ v, dc.tick b = .ok v :=
        fun k b hk hb => hdec k b (List.mem_cons_of_mem _ hk) hb
      obtain ⟨tas1, hline1, hpub1⟩ := ih (amErase m k0) hfind1 hnd1 hdec1
      cases hdk0 : data k0 with
      | none =>
          rw [hdk0] at hf0
          simp only [Option.map] at hf0
          refine ⟨tas1, ?_, ?_⟩
          · simp only [ticksLoop, amRemove, hf0]
            rw [hline1]
            simp [List.filter, hdk0]
          · rw [hpub1]
            simp [List.filter, hdk0]
      | some b0 =>
          obtain ⟨v0, hv0⟩ := hdec k0 b0 (List.mem_cons_self _ _) hdk0
          rw [hdk0] at hf0
          simp only [Option.map] at hf0
          have hinit : ManagedAccount.new_initialized_from_bytes dc.tick k0
              b0 t0 = .ok ⟨k0, b0, v0, 1, t0⟩ := by
            simp [ManagedAccount.new_initialized_from_bytes, hv0]
          refine ⟨⟨k0, b0, v0, 1, t0⟩ :: tas1, ?_, ?_⟩
          · simp only [ticksLoop, amRemove, hf0, hinit]
            rw [hline1]
            simp [List.filter, hdk0]
          · simp only [List.map_cons, hpub1]
            simp [List.filter, hdk0]

-- ------------------------------------------------------------------ --
-- Construction under a table provider
-- ------------------------------------------------------------------ --

/-- Under a provider answering batched fetches from a fixed table
`data`, a successful primary fetch and decode, and successful address
derivation, construction reduces to `assemblePool` over the merged map
of the derived key list, with the chunked key list as its call log. -/
theorem construction_table_eq {TA OR MI : Type} (dc : Decoders TA OR MI)
    (fpa : Fpa) (pk : Pubkey) (prov : RpcProvider)
    (data : Pubkey → Option ByteSeq) (t0 : Nat) (pb : ByteSeq) (tp : Nat)
    (wd : WhirlpoolData) (op : Option Pubkey) (tks : List Pubkey)
    (hmulti : ∀ ks, prov.getMultipleAccounts ks = .ok ⟨ks.map data, t0⟩)
    (hacc : prov.getAccount pk = .ok ⟨pb, tp⟩)
    (hwd : dc.whirl pb = .ok wd)
    (hop : (match get_oracle_address fpa pk with
            | .ok r => some r.1
            | .error _ => none) = op)
    (htk : get_tick_array_addresses fpa pk wd.tick_spacing = .ok tks)
    (hlim : prov.maxAccountsPerRpcCall ≠ 0) :
    OrcaWhirlpool.new_initialized_from_rpc dc fpa pk prov =
      (assemblePool dc pk pb tp wd op tks
        (foldIns data t0 []
          (([wd.token_mint_a, wd.token_mint_b] ++
            (match op with
             | some opk => [opk]
             | none => [])) ++ tks)),
       chunks prov.maxAccountsPerRpcCall
        (([wd.token_mint_a, wd.token_mint_b] ++
          (match op with
           | some opk => [opk]
           | none => [])) ++ tks)) := by
  simp only [OrcaWhirlpool.new_initialized_from_rpc, hacc, hwd, hop, htk,
    if_neg hlim]
  rw [buildMapGo_table prov data t0 hmulti]
  rw [chunks_flatten _ _ hlim]
  cases op <;> rfl

-- ------------------------------------------------------------------ --
-- Claim C10
-- ------------------------------------------------------------------ --

/-- C10: fetched bytes are moved out of the merged map on first use, so
when the primary's `token_mint_a` equals `token_mint_b`, the Mint B
lookup finds nothing and construction fails with the
`Required account Mint B … could not be fetched` error, even though the
provider returned data for that key (and Mint A decoded fine). -/
theorem C10_duplicate_mint_key_error {TA OR MI : Type} (dc : Decoders TA OR MI)
    (fpa : Fpa) (pk : Pubkey) (prov : RpcProvider)
    (data : Pubkey → Option ByteSeq) (t0 : Nat) (pb : ByteSeq) (tp : Nat)
    (wd : WhirlpoolData) (op : Option Pubkey) (tks : List Pubkey)
    (ba : ByteSeq) (va : MI)
    (hmulti : ∀ ks, prov.getMultipleAccounts ks = .ok ⟨ks.map data, t0⟩)
    (hacc : prov.getAccount pk = .ok ⟨pb, tp⟩)
    (hwd : dc.whirl pb = .ok wd)
    (hop : (match get_oracle_address fpa pk with
            | .ok r => some r.1
            | .error _ => none) = op)
    (htk : get_tick_array_addresses fpa pk wd.tick_spacing = .ok tks)
    (hlim : prov.maxAccountsPerRpcCall ≠ 0)
    (heq : wd.token_mint_a = wd.token_mint_b)
    (hdata : data wd.token_mint_a = some ba)
    (hmint : dc.mint ba = .ok va) :
    (OrcaWhirlpool.new_initialized_from_rpc dc fpa pk prov).1 =
      .error ("Required account Mint B " ++ toString wd.token_mint_b ++
        " could not be fetched") := by
  rw [construction_table_eq dc fpa pk prov data t0 pb tp wd op tks hmulti
    hacc hwd hop htk hlim]
  set m0 := foldIns data t0 []
    (([wd.token_mint_a, wd.token_mint_b] ++
      (match op with
       | some opk => [opk]
       | none => [])) ++ tks) with hm0
  have hwhirl : ManagedAccount.new_initialized_from_bytes dc.whirl pk pb tp =
      .ok ⟨pk, pb, wd, 1, tp⟩ := by
    simp [ManagedAccount.new_initialized_from_bytes, hwd]
  have hfA : amFind m0 wd.token_mint_a = some (ba, t0) := by
    rw [hm0, amFind_foldIns, hdata]
    simp
  have hmintA : ManagedAccount.new_initialized_from_bytes dc.mint
      wd.token_mint_a ba t0 = .ok ⟨wd.token_mint_a, ba, va, 1, t0⟩ := by
    simp [ManagedAccount.new_initialized_from_bytes, hmint]
  have hfB : amFind (amErase m0 wd.token_mint_a) wd.token_mint_b = none := by
    rw [← heq]
    exact amFind_amErase_self _ _
  simp only [assemblePool, amRemove, hwhirl, hfA, hmintA, hfB]

/-- The decoded whirlpool with `token_mint_a = token_mint_b` for the C10
witness. -/
def cWdDup : WhirlpoolData :=
  { token_mint_a := 11, token_mint_b := 11, tick_spacing := 6000 }

/-- Decoders decoding the primary to the duplicate-mint whirlpool. -/
def cDcDup : Decoders Unit Unit Unit :=
  { whirl := fun _ => .ok cWdDup
    tick := fun _ => .ok ()
    orac := fun _ => .ok ()
    mint := fun _ => .ok () }

/-- Fetch table for the C10 witness: the shared mint key has data. -/
def cDataDup : Pubkey → Option ByteSeq := fun k =>
  if k = 11 then some [1] else none

/-- Provider for the C10 witness. -/
def cProvDup : RpcProvider :=
  { getAccount := fun k => if k = 1 then .ok ⟨[0], 7⟩ else .error "not found"
    getMultipleAccounts := fun ks => .ok ⟨ks.map cDataDup, 9⟩
    maxAccountsPerRpcCall := 100 }

/-- Witness for C10: with both mints the same key and the provider
returning data for it, construction fails with the Mint B error. -/
theorem C10_duplicate_mint_key_error_witness :
    cWdDup.token_mint_a = cWdDup.token_mint_b ∧
    cDataDup cWdDup.token_mint_a = some [1] ∧
    cDcDup.mint [1] = .ok () ∧
    (OrcaWhirlpool.new_initialized_from_rpc cDcDup cFpa 1 cProvDup).1 =
      .error ("Required account Mint B " ++ toString cWdDup.token_mint_b ++
        " could not be fetched") := by
  refine ⟨rfl, rfl, rfl, ?_⟩
  exact C10_duplicate_mint_key_error cDcDup cFpa 1 cProvDup cDataDup 9 [0] 7
    cWdDup (some 601) [2072000, 2600000] [1] () (fun ks => rfl) rfl rfl rfl
    rfl (by decide) rfl rfl rfl

-- ------------------------------------------------------------------ --
-- Claim C5
-- ------------------------------------------------------------------ --

/-- C5: during construction, an absent mandatory dependent (either token
mint) fails the whole construction with no pool; absent optional
dependents (the oracle and any derived tick arrays) leave construction
successful, with the returned pool holding `oracle = none` and one cache
per present tick array, and exactly one Failed-Member entry per absent
optional dependent — the oracle entry first, then the absent tick arrays
in derivation order. -/
theorem C5_construction_absent_dependents {TA OR MI : Type}
    (dc : Decoders TA OR MI) (fpa : Fpa) (pk : Pubkey) (prov : RpcProvider)
    (data : Pubkey → Option ByteSeq) (t0 : Nat) (pb : ByteSeq) (tp : Nat)
    (wd : WhirlpoolData) (opk : Pubkey) (bump : Nat) (tks : List Pubkey)
    (hmulti : ∀ ks, prov.getMultipleAccounts ks = .ok ⟨ks.map data, t0⟩)
    (hacc : prov.getAccount pk = .ok ⟨pb, tp⟩)
    (hwd : dc.whirl pb = .ok wd)
    (hor : get_oracle_address fpa pk = .ok (opk, bump))
    (htk : get_tick_array_addresses fpa pk wd.tick_spacing = .ok tks)
    (hlim : prov.maxAccountsPerRpcCall ≠ 0)
    (hnd : (wd.token_mint_a :: wd.token_mint_b :: opk :: tks).Nodup) :
    (data wd.token_mint_a = none →
      (OrcaWhirlpool.new_initialized_from_rpc dc fpa pk prov).1 =
        .error ("Required account Mint A " ++ toString wd.token_mint_a ++
          " could not be fetched")) ∧
    (∀ ba va, data wd.token_mint_a = some ba → dc.mint ba = .ok va →
      data wd.token_mint_b = none →
      (OrcaWhirlpool.new_initialized_from_rpc dc fpa pk prov).1 =
        .error ("Required account Mint B " ++ toString wd.token_mint_b ++
          " could not be fetched")) ∧
    (∀ ba va bb vb, data wd.token_mint_a = some ba → dc.mint ba = .ok va →
      data wd.token_mint_b = some bb → dc.mint bb = .ok vb →
      data opk = none →
      (∀ k b, k ∈ tks → data k = some b → ∃ v, dc.tick b = .ok v) →
      ∃ pool fails,
        (OrcaWhirlpool.new_initialized_from_rpc dc fpa pk prov).1 =
          .ok (pool, fails) ∧
        pool.oracle = none ∧
        pool.tick_arrays.map ManagedAccount.pubkey =
          tks.filter (fun k => (data k).isSome) ∧
        fails = { pubkey := opk, account_type := "Oracle" } ::
          (tks.filter (fun k => (data k).isNone)).map
            (fun k => { pubkey := k, account_type := "TickArray" }) ∧
        fails.length =
          1 + (tks.filter (fun k => (data k).isNone)).length) := by
  have hop : (match get_oracle_address fpa pk with
      | .ok r => some r.1
      | .error _ => none) = some opk := by rw [hor]
  have hchar := construction_table_eq dc fpa pk prov data t0 pb tp wd
    (some opk) tks hmulti hacc hwd hop htk hlim
  simp only [List.nodup_cons, List.mem_cons, not_or] at hnd
  obtain ⟨⟨hab, hao, hat⟩, ⟨hbo, hbt⟩, hot, hndt⟩ := hnd
  rw [hchar]
  set m0 := foldIns data t0 []
    (([wd.token_mint_a, wd.token_mint_b] ++
      (match (some opk : Option Pubkey) with
       | some o => [o]
       | none => [])) ++ tks) with hm0
  have hwhirl : ManagedAccount.new_initialized_from_bytes dc.whirl pk pb tp =
      .ok ⟨pk, pb, wd, 1, tp⟩ := by
    simp [ManagedAccount.new_initialized_from_bytes, hwd]
  refine ⟨?_, ?_, ?_⟩
  · -- mandatory Mint A absent
    intro hA
    have hfA : amFind m0 wd.token_mint_a = none := by
      rw [hm0, amFind_foldIns, hA]
      rfl
    simp only [assemblePool, amRemove, hwhirl, hfA]
  · -- mandatory Mint B absent
    intro ba va hA hva hB
    have hfA : amFind m0 wd.token_mint_a = some (ba, t0) := by
      rw [hm0, amFind_foldIns, hA]
      simp
    have hmintA : ManagedAccount.new_initialized_from_bytes dc.mint
        wd.token_mint_a ba t0 = .ok ⟨wd.token_mint_a, ba, va, 1, t0⟩ := by
      simp [ManagedAccount.new_initialized_from_bytes, hva]
    have hfB : amFind (amErase m0 wd.token_mint_a) wd.token_mint_b = none := by
      rw [amFind_amErase_ne m0 wd.token_mint_a wd.token_mint_b hab,
        hm0, amFind_foldIns, hB]
      rfl
    simp only [assemblePool, amRemove, hwhirl, hfA, hmintA, hfB]
  · -- optional dependents absent
    intro ba va bb vb hA hva hB hvb hO hticks
    have hfA : amFind m0 wd.token_mint_a = some (ba, t0) := by
      rw [hm0, amFind_foldIns, hA]
      simp
    have hmintA : ManagedAccount.new_initialized_from_bytes dc.mint
        wd.token_mint_a ba t0 = .ok ⟨wd.token_mint_a, ba, va, 1, t0⟩ := by
      simp [ManagedAccount.new_initialized_from_bytes, hva]
    have hfB : amFind (amErase m0 wd.token_mint_a) wd.token_mint_b =
        some (bb, t0) := by
      rw [amFind_amErase_ne m0 wd.token_mint_a wd.token_mint_b hab,
        hm0, amFind_foldIns, hB]
      simp
    have hmintB : ManagedAccount.new_initialized_from_bytes dc.mint
        wd.token_mint_b bb t0 = .ok ⟨wd.token_mint_b, bb, vb, 1, t0⟩ := by
      simp [ManagedAccount.new_initialized_from_bytes, hvb]
    have hfO : amFind (amErase (amErase m0 wd.token_mint_a)
        wd.token_mint_b) opk = none := by
      rw [amFind_amErase_ne _ wd.token_mint_b opk hbo,
        amFind_amErase_ne _ wd.token_mint_a opk hao,
        hm0, amFind_foldIns, hO]
      rfl
    have hfind3 : ∀ k, k ∈ tks →
        amFind (amErase (amErase (amErase m0 wd.token_mint_a)
          wd.token_mint_b) opk) k = (data k).map (fun b => (b, t0)) := by
      intro k hk
      have hka : wd.token_mint_a ≠ k := fun hc => hat (hc ▸ hk)
      have hkb : wd.token_mint_b ≠ k := fun hc => hbt (hc ▸ hk)
      have hko : opk ≠ k := fun hc => hot (hc ▸ hk)
      rw [amFind_amErase_ne _ opk k hko, amFind_amErase_ne _
        wd.token_mint_b k hkb, amFind_amErase_ne _ wd.token_mint_a k hka,
        hm0, amFind_foldIns]
      cases hdk : data k with
      | some b => simp [hk]
      | none => rfl
    obtain ⟨tas, hline, hpub⟩ := ticksLoop_table dc data t0 tks
      (amErase (amErase (amErase m0 wd.token_mint_a) wd.token_mint_b) opk)
      hfind3 hndt hticks
    refine ⟨⟨⟨pk, pb, wd, 1, tp⟩, tas, none, ⟨wd.token_mint_a, ba, va, 1, t0⟩,
      ⟨wd.token_mint_b, bb, vb, 1, t0⟩⟩,
      { pubkey := opk, account_type := "Oracle" } ::
        (tks.filter (fun k => (data k).isNone)).map
          (fun k => { pubkey := k, account_type := "TickArray" }),
      ?_, rfl, hpub, rfl, ?_⟩
    · simp only [assemblePool, amRemove, hwhirl, hfA, hmintA, hfB, hmintB, hfO]
      rw [hline]
      rfl
    · simp [Nat.add_comm]

/-- Decoders for the C5 witness (tick spacing 5042 derives exactly two
tick arrays). -/
def cDcC5 : Decoders Unit Unit Unit :=
  { whirl := fun _ =>
      .ok { token_mint_a := 11, token_mint_b := 12, tick_spacing := 5042 }
    tick := fun _ => .ok ()
    orac := fun _ => .ok ()
    mint := fun _ => .ok () }

/-- Fetch table for the C5 witness: both mints and the second derived
tick array are present; the oracle (601) and the first derived tick
array (2156304) are absent. -/
def cDataC5 : Pubkey → Option ByteSeq := fun k =>
  if k = 11 then some [1] else
  if k = 12 then some [1] else
  if k = 2600000 then some [2] else none

/-- Provider for the C5 witness. -/
def cProvC5 : RpcProvider :=
  { getAccount := fun k => if k = 1 then .ok ⟨[0], 7⟩ else .error "not found"
    getMultipleAccounts := fun ks => .ok ⟨ks.map cDataC5, 9⟩
    maxAccountsPerRpcCall := 100 }

/-- Witness for C5: both mints present, oracle and one of two derived
tick arrays absent — construction succeeds with `oracle = none`, one
tick-array cache, and exactly two Failed-Member entries (oracle first,
then the absent tick array). -/
theorem C5_construction_absent_dependents_witness :
    (cDataC5 601 = none ∧ cDataC5 2156304 = none ∧
      cDataC5 11 = some [1] ∧ cDataC5 12 = some [1]) ∧
    ∃ pool fails,
      (OrcaWhirlpool.new_initialized_from_rpc cDcC5 cFpa 1 cProvC5).1 =
        .ok (pool, fails) ∧
      pool.oracle = none ∧
      pool.tick_arrays.map ManagedAccount.pubkey =
        [2156304, 2600000].filter (fun k => (cDataC5 k).isSome) ∧
      fails = { pubkey := 601, account_type := "Oracle" } ::
        ([2156304, 2600000].filter (fun k => (cDataC5 k).isNone)).map
          (fun k => { pubkey := k, account_type := "TickArray" }) ∧
      fails.length =
        1 + ([2156304, 2600000].filter (fun k => (cDataC5 k).isNone)).length := by
  refine ⟨⟨rfl, rfl, rfl, rfl⟩, ?_⟩
  exact (C5_construction_absent_dependents cDcC5 cFpa 1 cProvC5 cDataC5 9 [0] 7
    { token_mint_a := 11, token_mint_b := 12, tick_spacing := 5042 } 601 255
    [2156304, 2600000] (fun ks => rfl) rfl rfl rfl rfl
    (by decide) (by decide)).2.2 [1] () [1] () rfl rfl rfl rfl rfl
    (fun k b _ _ => ⟨(), rfl⟩)
